import Mathlib

/-!
Verification of `paralife.py`, a parallel (MPI, row-decomposed) implementation of
Conway's Game of Life on a toroidal N x N grid.

Shallow embedding conventions:
* A numpy `N x N` array is embedded as a total function `ℕ → ℕ → ℕ`; only the
  values at indices `< N` (resp. `< N + 2` for the augmented array) are meaningful,
  and every statement quantifies accordingly.
* `Life.grid` / `Life.aug_grid` become the two fields of `LifeState`.
* In-place mutation of `self.grid` inside the update loops is embedded as a
  left fold of single-cell write steps over the iteration order of the source
  (`np.ndindex` iterates row-major, i.e. rows outer, columns inner).
* MPI collectives: `comm.bcast(x, root = r)` returns worker `r`'s value of `x` on
  every worker.  The per-row exchange loop of `update_para_1d_dec` (lines 71-73)
  therefore overwrites row `r` on every worker with the row held by the owner
  `r % mpi_size`; the augmented-grid broadcast (lines 79-81) gives every worker
  rank 0's rebuilt augmented grid.  The worker ensemble is embedded as a function
  `ℕ → LifeState` from ranks to states, and one parallel step maps ensembles to
  ensembles.
* The plotting calls (`plt.cla`, `plt.imshow`) in the update functions only
  produce a return value for matplotlib and do not touch `grid` / `aug_grid`;
  they are dropped.
-/

namespace Paralife

/-- A two-dimensional array of naturals, as a total function on indices. -/
abbrev Grid : Type := ℕ → ℕ → ℕ

/-- The mutable state of a `Life` object: the `N x N` cell matrix `grid` and the
wrap-padded `(N+2) x (N+2)` matrix `aug_grid` (fields of the Python class). -/
structure LifeState : Type where
  grid : Grid
  aug_grid : Grid

attribute [ext] LifeState

/-- Embeds `Life.form_aug_grid` (line 31): `np.lib.pad(a, ((1,1),(1,1)), 'wrap')`.
For a one-cell wrap pad, entry `(i, j)` of the padded array is
`a[(i-1) mod N][(j-1) mod N]`; in `ℕ` arithmetic `(i-1) mod N` is `(i + N - 1) % N`.
Meaningful on indices `i, j ≤ N + 1`. -/
def form_aug_grid (N : ℕ) (a : Grid) : Grid :=
  fun i j => a ((i + N - 1) % N) ((j + N - 1) % N)

/-- Embeds `Life.neighbor_sum` (lines 34-39), a verbatim transliteration of the
eight `aug_grid` reads. -/
def neighbor_sum (st : LifeState) (row col : ℕ) : ℕ :=
  st.aug_grid (row + 2) (col + 2) + st.aug_grid (row + 2) (col + 1) +
    st.aug_grid (row + 2) col +
    st.aug_grid (row + 1) (col + 2) + st.aug_grid (row + 1) col +
    st.aug_grid row (col + 2) + st.aug_grid row (col + 1) + st.aug_grid row col

/-- Overwrite one entry of a grid (embeds `self.grid[row][col] = v`). -/
def writeCell (g : Grid) (r c v : ℕ) : Grid :=
  fun i j => if i = r ∧ j = c then v else g i j

/-- One iteration of the cell loop body shared by `update` (lines 45-48) and
`update_para_1d_dec` (lines 64-67):
`if neighbor_sum == 3: grid[row][col] = 1 elif neighbor_sum != 2: grid[row][col] = 0`.
`aug_grid` is not modified inside the loop. -/
def cellStep (st : LifeState) (row col : ℕ) : LifeState :=
  if neighbor_sum st row col = 3 then ⟨writeCell st.grid row col 1, st.aug_grid⟩
  else if neighbor_sum st row col ≠ 2 then ⟨writeCell st.grid row col 0, st.aug_grid⟩
  else st

/-- The inner column loop: apply `cellStep` at `(row, col)` for each `col` in the
given list (the source iterates `col` over `range(N)`). -/
def sweepCols (row : ℕ) (cols : List ℕ) (st : LifeState) : LifeState :=
  cols.foldl (fun t col => cellStep t row col) st

/-- The double loop of `Life.update` (line 44): `np.ndindex` iterates row-major. -/
def sweep (N : ℕ) (st : LifeState) : LifeState :=
  (List.range N).foldl (fun s row => sweepCols row (List.range N) s) st

/-- Embeds `Life.update` (lines 43-52): run the in-place cell sweep, then rebuild
`aug_grid` from the updated grid (line 49).  The plotting return value is dropped. -/
def update (N : ℕ) (st : LifeState) : LifeState :=
  let st1 := sweep N st
  ⟨st1.grid, form_aug_grid N st1.grid⟩

/-- Embeds the row-ownership test of `update_para_1d_dec` (line 61,
`row % mpi_size == rank`) and of the exchange roots (line 73), as the spec's
`RowPartitioner.ownerOf`. -/
def ownerOf (row W : ℕ) : ℕ :=
  row % W

/-- The local-compute phase of `update_para_1d_dec` (lines 60-67) as executed by
worker `rank` with `W = mpi_size`: every owned row is swept in place, other rows
are untouched, and `aug_grid` stays as it was at the start of the call. -/
def localCompute (N W rank : ℕ) (st : LifeState) : LifeState :=
  (List.range N).foldl
    (fun s row => if ownerOf row W = rank then sweepCols row (List.range N) s else s) st

/-- Embeds `Life.update_para_1d_dec` (lines 58-84) acting on the whole worker
ensemble `sts : rank → state`.  Each worker computes its owned rows from its own
state; the per-row broadcast loop (lines 71-73) replaces row `r < N` on every
worker with the owner's computed row; rank 0 rebuilds `aug_grid` from its
exchanged grid (lines 79-80) and broadcasts it to everyone (line 81). -/
def update_para_1d_dec (N W : ℕ) (sts : ℕ → LifeState) : ℕ → LifeState :=
  fun w =>
    let lc : ℕ → LifeState := fun v => localCompute N W v (sts v)
    let exch : ℕ → Grid := fun v r c =>
      if r < N then (lc (ownerOf r W)).grid r c else (lc v).grid r c
    ⟨exch w, form_aug_grid N (exch 0)⟩

/-- The state every worker holds right after the startup broadcast
(lines 159-160): worker 0's random grid `g` on every worker, with `aug_grid`
recomputed locally from it.  The constructor `Life.__init__` (lines 20-23)
establishes the same shape for rank 0's own `g`. -/
def initBcast (N : ℕ) (g : Grid) : LifeState :=
  ⟨g, form_aug_grid N g⟩

/-- The per-cell transition the loop body implements, as a function of the
neighbor count and the cell's current value: set to 1 on count 3, set to 0 on any
count other than 3 and 2, keep the current value on count 2. -/
def applyRule (ns old : ℕ) : ℕ :=
  if ns = 3 then 1 else if ns ≠ 2 then 0 else old

/-- The value a single in-range cell holds after being processed once by the
cell loop, as a function of the pre-sweep state. -/
def nextCell (st : LifeState) (r c : ℕ) : ℕ :=
  applyRule (neighbor_sum st r c) (st.grid r c)

/-- Cells of `g` below the `N x N` bound all hold 0 or 1. -/
def cells01 (N : ℕ) (g : Grid) : Prop :=
  ∀ r c, r < N → c < N → g r c = 0 ∨ g r c = 1

/-- Modelled from the spec: the standard Game of Life transition rule
(section 4.2): the next state is alive iff the cell is alive with 2 or 3 live
neighbors, or dead with exactly 3 live neighbors. -/
def lifeRule (s c : ℕ) : ℕ :=
  if (s = 1 ∧ (c = 2 ∨ c = 3)) ∨ (s = 0 ∧ c = 3) then 1 else 0

/-- Toroidal index reduction `i mod N` for a possibly negative index `i`,
matching Python's nonnegative `%`. -/
def wrapIdx (N : ℕ) (i : ℤ) : ℕ :=
  (i % (N : ℤ)).toNat

/-- Modelled from the spec: the naive reference neighbor sum (section 8, wrap
correctness): the sum of `grid[(row+dr) mod N][(col+dc) mod N]` over the eight
offsets `(dr, dc)` in `{-1,0,1}^2` other than `(0,0)`. -/
def refNeighborSum (N : ℕ) (g : Grid) (row col : ℕ) : ℕ :=
  g (wrapIdx N ((row : ℤ) - 1)) (wrapIdx N ((col : ℤ) - 1)) +
    g (wrapIdx N ((row : ℤ) - 1)) (wrapIdx N (col : ℤ)) +
    g (wrapIdx N ((row : ℤ) - 1)) (wrapIdx N ((col : ℤ) + 1)) +
    g (wrapIdx N (row : ℤ)) (wrapIdx N ((col : ℤ) - 1)) +
    g (wrapIdx N (row : ℤ)) (wrapIdx N ((col : ℤ) + 1)) +
    g (wrapIdx N ((row : ℤ) + 1)) (wrapIdx N ((col : ℤ) - 1)) +
    g (wrapIdx N ((row : ℤ) + 1)) (wrapIdx N (col : ℤ)) +
    g (wrapIdx N ((row : ℤ) + 1)) (wrapIdx N ((col : ℤ) + 1))

/-- Modelled from the spec: the standard simultaneous update (sections 4.2 and
9): every in-range cell's next state is computed by the standard rule from the
pre-step grid alone, then committed. -/
def simultaneousUpdate (N : ℕ) (g : Grid) : Grid :=
  fun r c => if r < N ∧ c < N then lifeRule (g r c) (refNeighborSum N g r c) else g r c

/-- Embeds `rows_per_proc = N / mpi_size` (line 142).  The source is Python 2,
where `/` on ints is floor division. -/
def rows_per_proc (N mpi_size : ℕ) : ℕ :=
  N / mpi_size

/-- Embeds `int(N*1.0 / mpi_size)` (line 143): true division followed by
truncation toward zero, modelled with exact rational arithmetic.  (The source
computes in IEEE doubles; for the configurations at issue, e.g. `N = 10`,
`mpi_size = 3`, the double quotient lies strictly between the two adjacent
integers, so truncation gives the same value as the exact computation.) -/
def int_true_div (N mpi_size : ℕ) : ℕ :=
  (⌊(N : ℚ) / (mpi_size : ℚ)⌋).toNat

/-- The condition of the startup divisibility check (line 143):
`rows_per_proc != int(N*1.0 / mpi_size)`.  Only when this is `true` does the
program print the diagnostic and call `exit()` (and then only on rank 0, with
exit status 0, since Python's `sys.exit()` with no argument exits with 0). -/
def startup_check_triggers (N mpi_size : ℕ) : Bool :=
  rows_per_proc N mpi_size != int_true_div N mpi_size

/-- The set of rows below `N` owned by worker `w` under the modulo partition. -/
def ownedRows (N W w : ℕ) : Finset ℕ :=
  Finset.filter (fun r => ownerOf r W = w) (Finset.range N)

/-- Indicator for membership of an index in the pair `{x, x+1}`. -/
def pairInd (x r : ℕ) : ℕ :=
  if r = x ∨ r = x + 1 then 1 else 0

/-- A grid whose only live cells are the 2 x 2 block with top-left corner
`(r0, c0)`: cell `(r, c)` is 1 exactly when `r ∈ {r0, r0+1}` and
`c ∈ {c0, c0+1}`, and 0 everywhere else. -/
def blockGrid (r0 c0 : ℕ) : Grid :=
  fun r c => pairInd r0 r * pairInd c0 c

/-- The common shape of the row loops of `update` (no guard) and of
`update_para_1d_dec` (guard `row % mpi_size == rank`): sweep the columns of
every row of `rows` that satisfies `P`. -/
def guardedSweep (N : ℕ) (P : ℕ → Prop) [DecidablePred P] (rows : List ℕ)
    (st : LifeState) : LifeState :=
  rows.foldl (fun s row => if P row then sweepCols row (List.range N) s else s) st

end Paralife

namespace Paralife

/-- Successor modulo `N`, written without `%` on the right-hand side. -/
theorem mod_add_one (N r : ℕ) (h : r < N) :
    (r + 1) % N = if r + 1 = N then 0 else r + 1 := by
  split
  · simp_all
  · exact Nat.mod_eq_of_lt (by omega)

/-- Predecessor modulo `N` (encoded as `(r + N - 1) % N`), without `%` on the
right-hand side. -/
theorem mod_sub_one (N r : ℕ) (h : r < N) :
    (r + N - 1) % N = if r = 0 then N - 1 else r - 1 := by
  split
  · subst r; simp
  · have h2 : r + N - 1 = N + (r - 1) := by omega
    rw [h2, Nat.add_mod_left]
    exact Nat.mod_eq_of_lt (by omega)

theorem cellStep_aug (st : LifeState) (row col : ℕ) :
    (cellStep st row col).aug_grid = st.aug_grid := by
  unfold cellStep
  split
  · rfl
  · split <;> rfl

theorem cellStep_grid_ne (st : LifeState) (row col i j : ℕ)
    (h : ¬(i = row ∧ j = col)) :
    (cellStep st row col).grid i j = st.grid i j := by
  unfold cellStep writeCell
  split
  · simp [h]
  · split
    · simp [h]
    · rfl

theorem cellStep_grid_self (st : LifeState) (row col : ℕ) :
    (cellStep st row col).grid row col =
      applyRule (neighbor_sum st row col) (st.grid row col) := by
  unfold cellStep writeCell applyRule
  split
  · simp_all
  · split <;> simp_all

theorem neighbor_sum_congr (st1 st2 : LifeState)
    (h : st1.aug_grid = st2.aug_grid) (r c : ℕ) :
    neighbor_sum st1 r c = neighbor_sum st2 r c := by
  unfold neighbor_sum
  rw [h]

theorem nextCell_congr (st1 st2 : LifeState) (r c : ℕ)
    (haug : st1.aug_grid = st2.aug_grid) (hg : st1.grid r c = st2.grid r c) :
    nextCell st1 r c = nextCell st2 r c := by
  unfold nextCell
  rw [neighbor_sum_congr st1 st2 haug, hg]

theorem sweepCols_aug (row : ℕ) (cs : List ℕ) (st : LifeState) :
    (sweepCols row cs st).aug_grid = st.aug_grid := by
  induction cs generalizing st with
  | nil => rfl
  | cons a cs ih =>
      show (sweepCols row cs (cellStep st row a)).aug_grid = st.aug_grid
      rw [ih (cellStep st row a), cellStep_aug]

/-- Characterization of the inner column loop: after sweeping the (duplicate-free)
column list `cs` of row `row`, a cell holds its one-step value if it was visited
and its old value otherwise. -/
theorem sweepCols_grid (row : ℕ) (cs : List ℕ) (hnd : cs.Nodup)
    (st : LifeState) (i j : ℕ) :
    (sweepCols row cs st).grid i j =
      if i = row ∧ j ∈ cs then nextCell st i j else st.grid i j := by
  induction cs generalizing st with
  | nil => simp [sweepCols]
  | cons a cs ih =>
      obtain ⟨ha, hnd2⟩ := List.nodup_cons.mp hnd
      show (sweepCols row cs (cellStep st row a)).grid i j = _
      rw [ih hnd2 (cellStep st row a)]
      by_cases h1 : i = row ∧ j ∈ cs
      · have hja : j ≠ a := fun hja => ha (hja ▸ h1.2)
        have hcell : (cellStep st row a).grid i j = st.grid i j :=
          cellStep_grid_ne st row a i j (fun hc => hja hc.2)
        have hnc : nextCell (cellStep st row a) i j = nextCell st i j :=
          nextCell_congr _ _ i j (cellStep_aug st row a) hcell
        simp only [if_pos h1, hnc]
        rw [if_pos ⟨h1.1, List.mem_cons_of_mem a h1.2⟩]
      · by_cases h2 : i = row ∧ j = a
        · obtain ⟨hir, hja⟩ := h2
          subst hir
          subst hja
          rw [if_neg h1, if_pos ⟨rfl, by simp⟩]
          exact cellStep_grid_self st _ _
        · rw [if_neg h1, if_neg (by simp only [List.mem_cons]; tauto),
            cellStep_grid_ne st row a i j h2]

theorem guardedSweep_aug (N : ℕ) (P : ℕ → Prop) [DecidablePred P]
    (rows : List ℕ) (st : LifeState) :
    (guardedSweep N P rows st).aug_grid = st.aug_grid := by
  induction rows generalizing st with
  | nil => rfl
  | cons a rows ih =>
      show (guardedSweep N P rows
        (if P a then sweepCols a (List.range N) st else st)).aug_grid = st.aug_grid
      rw [ih]
      split
      · exact sweepCols_aug a (List.range N) st
      · rfl

/-- Characterization of a guarded row sweep over a duplicate-free row list:
a cell changes exactly when its row was visited and passes the guard and its
column is in range, and then it changes to its one-step value computed from the
state as it was before the whole sweep. -/
theorem guardedSweep_grid (N : ℕ) (P : ℕ → Prop) [DecidablePred P]
    (rows : List ℕ) (hnd : rows.Nodup) (st : LifeState) (i j : ℕ) :
    (guardedSweep N P rows st).grid i j =
      if i ∈ rows ∧ P i ∧ j < N then nextCell st i j else st.grid i j := by
  induction rows generalizing st with
  | nil => simp [guardedSweep]
  | cons a rows ih =>
      obtain ⟨ha, hnd2⟩ := List.nodup_cons.mp hnd
      have hstep : ∀ st1 : LifeState,
          (if P a then sweepCols a (List.range N) st1 else st1).grid i j =
            if i = a ∧ P a ∧ j < N then nextCell st1 i j else st1.grid i j := by
        intro st1
        by_cases hPa : P a
        · rw [if_pos hPa, sweepCols_grid a (List.range N) (List.nodup_range N) st1 i j]
          by_cases hcond : i = a ∧ j ∈ List.range N
          · rw [if_pos hcond, if_pos ⟨hcond.1, hPa, List.mem_range.mp hcond.2⟩]
          · rw [if_neg hcond, if_neg (by simp only [List.mem_range] at hcond ⊢; tauto)]
        · rw [if_neg hPa, if_neg (by tauto)]
      have haug : (if P a then sweepCols a (List.range N) st else st).aug_grid =
          st.aug_grid := by
        split
        · exact sweepCols_aug a (List.range N) st
        · rfl
      show (guardedSweep N P rows _).grid i j = _
      rw [ih hnd2]
      by_cases h1 : i ∈ rows ∧ P i ∧ j < N
      · have hia : i ≠ a := fun hia => ha (hia ▸ h1.1)
        have hgr : (if P a then sweepCols a (List.range N) st else st).grid i j =
            st.grid i j := by
          rw [hstep st, if_neg (by tauto)]
        have hnc : nextCell (if P a then sweepCols a (List.range N) st else st) i j =
            nextCell st i j := nextCell_congr _ _ i j haug hgr
        rw [if_pos h1, hnc, if_pos ⟨List.mem_cons_of_mem a h1.1, h1.2⟩]
      · rw [if_neg h1, hstep st]
        have hiff : (i = a ∧ P a ∧ j < N) ↔ (i ∈ a :: rows ∧ P i ∧ j < N) := by
          constructor
          · rintro ⟨hia, hPa2, hj⟩
            subst hia
            exact ⟨by simp, hPa2, hj⟩
          · rintro ⟨hmem, hPi, hj⟩
            rcases List.mem_cons.mp hmem with hia | hmem2
            · subst hia
              exact ⟨rfl, hPi, hj⟩
            · exact absurd ⟨hmem2, hPi, hj⟩ h1
        rw [if_congr hiff rfl rfl]

end Paralife

namespace Paralife

theorem sweep_eq_guarded (N : ℕ) (st : LifeState) :
    sweep N st = guardedSweep N (fun _ => True) (List.range N) st := by
  unfold sweep guardedSweep
  simp

theorem sweep_aug (N : ℕ) (st : LifeState) :
    (sweep N st).aug_grid = st.aug_grid := by
  rw [sweep_eq_guarded]
  exact guardedSweep_aug N _ (List.range N) st

/-- Pointwise characterization of the serial cell sweep: because the loop body
reads neighborhoods from the untouched `aug_grid` only, and writes each cell at
most once, every in-range cell ends at its one-step value computed from the
pre-sweep state, and everything else is unchanged. -/
theorem sweep_grid (N : ℕ) (st : LifeState) (i j : ℕ) :
    (sweep N st).grid i j =
      if i < N ∧ j < N then nextCell st i j else st.grid i j := by
  rw [sweep_eq_guarded, guardedSweep_grid N _ (List.range N) (List.nodup_range N) st i j]
  simp only [List.mem_range, true_and]

theorem localCompute_eq_guarded (N W rank : ℕ) (st : LifeState) :
    localCompute N W rank st =
      guardedSweep N (fun row => ownerOf row W = rank) (List.range N) st := rfl

theorem localCompute_aug (N W rank : ℕ) (st : LifeState) :
    (localCompute N W rank st).aug_grid = st.aug_grid := by
  rw [localCompute_eq_guarded]
  exact guardedSweep_aug N _ (List.range N) st

/-- Pointwise characterization of one worker's local-compute phase: exactly the
in-range cells of the rows owned by `rank` are stepped. -/
theorem localCompute_grid (N W rank : ℕ) (st : LifeState) (i j : ℕ) :
    (localCompute N W rank st).grid i j =
      if i < N ∧ ownerOf i W = rank ∧ j < N then nextCell st i j else st.grid i j := by
  rw [localCompute_eq_guarded, guardedSweep_grid N _ (List.range N) (List.nodup_range N) st i j]
  simp only [List.mem_range]

theorem update_grid_eq (N : ℕ) (st : LifeState) (i j : ℕ) :
    (update N st).grid i j =
      if i < N ∧ j < N then nextCell st i j else st.grid i j := by
  exact sweep_grid N st i j

/-- When every worker enters `update_para_1d_dec` with one and the same state
(the situation the startup broadcast establishes and each step re-establishes),
the parallel step gives every worker exactly the state of the serial `update`. -/
theorem update_para_const (N W : ℕ) (st : LifeState) (w : ℕ) :
    update_para_1d_dec N W (fun _ => st) w = update N st := by
  have hexch : ∀ v : ℕ,
      (fun r c => if r < N then (localCompute N W (ownerOf r W) st).grid r c
        else (localCompute N W v st).grid r c) = (sweep N st).grid := by
    intro v
    funext i j
    by_cases hi : i < N
    · rw [if_pos hi, localCompute_grid, sweep_grid]
      by_cases hj : j < N
      · rw [if_pos ⟨hi, rfl, hj⟩, if_pos ⟨hi, hj⟩]
      · rw [if_neg (by tauto), if_neg (by tauto)]
    · rw [if_neg hi, localCompute_grid, sweep_grid, if_neg (by tauto),
        if_neg (by tauto)]
  apply LifeState.ext
  · exact hexch w
  · exact congrArg (form_aug_grid N) (hexch 0)

/-- Iterated version of `update_para_const`: from an identical start, `k`
parallel generations leave every worker in the state of `k` serial generations. -/
theorem update_para_iter_const (N W k : ℕ) (st : LifeState) :
    (update_para_1d_dec N W)^[k] (fun _ => st) = fun _ => (update N)^[k] st := by
  induction k generalizing st with
  | zero => rfl
  | succ k ih =>
      rw [Function.iterate_succ_apply, Function.iterate_succ_apply,
        show update_para_1d_dec N W (fun _ => st) = fun _ => update N st from
          funext (update_para_const N W st), ih]

theorem wrapIdx_sub_one (N r : ℕ) (h0 : 0 < N) :
    wrapIdx N ((r : ℤ) - 1) = (r + N - 1) % N := by
  unfold wrapIdx
  have h1 : ((r : ℤ) - 1) % (N : ℤ) = ((r : ℤ) - 1 + N) % N := by
    simp [Int.add_emod, Int.emod_emod_of_dvd]
  have h2 : (r : ℤ) - 1 + N = ((r + N - 1 : ℕ) : ℤ) := by omega
  rw [h1, h2, ← Int.natCast_mod, Int.toNat_natCast]

theorem wrapIdx_self (N r : ℕ) (h : r < N) : wrapIdx N (r : ℤ) = r := by
  unfold wrapIdx
  rw [← Int.natCast_mod, Int.toNat_natCast]
  exact Nat.mod_eq_of_lt h

theorem wrapIdx_add_one (N r : ℕ) : wrapIdx N ((r : ℤ) + 1) = (r + 1) % N := by
  unfold wrapIdx
  rw [show (r : ℤ) + 1 = ((r + 1 : ℕ) : ℤ) by omega, ← Int.natCast_mod,
    Int.toNat_natCast]

/-- Under the invariant `aug_grid = form_aug_grid grid`, the eight `aug_grid`
reads of `neighbor_sum` land exactly on the toroidally wrapped neighbors of
`(r, c)` in `grid`. -/
theorem neighbor_sum_window (N : ℕ) (st : LifeState) (r c : ℕ)
    (hinv : st.aug_grid = form_aug_grid N st.grid) (hr : r < N) (hc : c < N) :
    neighbor_sum st r c =
      st.grid ((r + 1) % N) ((c + 1) % N) + st.grid ((r + 1) % N) c +
        st.grid ((r + 1) % N) ((c + N - 1) % N) +
        st.grid r ((c + 1) % N) + st.grid r ((c + N - 1) % N) +
        st.grid ((r + N - 1) % N) ((c + 1) % N) + st.grid ((r + N - 1) % N) c +
        st.grid ((r + N - 1) % N) ((c + N - 1) % N) := by
  have e2 : ∀ x : ℕ, (x + 2 + N - 1) % N = (x + 1) % N := by
    intro x
    rw [show x + 2 + N - 1 = x + 1 + N by omega, Nat.add_mod_right]
  have e1 : ∀ x : ℕ, x < N → (x + 1 + N - 1) % N = x := by
    intro x hx
    rw [show x + 1 + N - 1 = x + N by omega, Nat.add_mod_right]
    exact Nat.mod_eq_of_lt hx
  unfold neighbor_sum
  rw [hinv]
  unfold form_aug_grid
  rw [e2 r, e2 c, e1 r hr, e1 c hc]

theorem applyRule_eq_lifeRule (ns s : ℕ) (hs : s = 0 ∨ s = 1) :
    applyRule ns s = lifeRule s ns := by
  unfold applyRule lifeRule
  rcases hs with rfl | rfl <;> split_ifs <;> first | rfl | omega | tauto

theorem applyRule01 (ns s : ℕ) (hs : s = 0 ∨ s = 1) :
    applyRule ns s = 0 ∨ applyRule ns s = 1 := by
  unfold applyRule
  split_ifs <;> tauto

theorem cells01_update (N : ℕ) (st : LifeState) (h : cells01 N st.grid) :
    cells01 N (update N st).grid := by
  intro r c hr hc
  rw [update_grid_eq N st r c, if_pos ⟨hr, hc⟩]
  unfold nextCell
  exact applyRule01 _ _ (h r c hr hc)

theorem cells01_update_iter (N k : ℕ) (st : LifeState) (h : cells01 N st.grid) :
    cells01 N ((update N)^[k] st).grid := by
  induction k with
  | zero => exact h
  | succ k ih =>
      rw [Function.iterate_succ_apply']
      exact cells01_update N _ ih

theorem form_aug_grid_le_one (N : ℕ) (g : Grid) (h : cells01 N g) (h0 : 0 < N)
    (i j : ℕ) : form_aug_grid N g i j ≤ 1 := by
  unfold form_aug_grid
  have hlt1 : (i + N - 1) % N < N := Nat.mod_lt _ h0
  have hlt2 : (j + N - 1) % N < N := Nat.mod_lt _ h0
  rcases h ((i + N - 1) % N) ((j + N - 1) % N) hlt1 hlt2 with he | he <;> omega

end Paralife

namespace Paralife

/-- Under the `aug_grid` invariant, the transliterated `neighbor_sum` agrees
with the naive modulo-`N` reference sum (shared helper). -/
theorem neighbor_sum_eq_ref (N : ℕ) (st : LifeState) (row col : ℕ) (h0 : 0 < N)
    (hinv : st.aug_grid = form_aug_grid N st.grid) (hr : row < N) (hc : col < N) :
    neighbor_sum st row col = refNeighborSum N st.grid row col := by
  rw [neighbor_sum_window N st row col hinv hr hc]
  unfold refNeighborSum
  rw [wrapIdx_sub_one N row h0, wrapIdx_sub_one N col h0, wrapIdx_add_one N row,
    wrapIdx_add_one N col, wrapIdx_self N row hr, wrapIdx_self N col hc]
  ring

theorem update_para_grid (N W : ℕ) (sts : ℕ → LifeState) (w r c : ℕ) (hr : r < N) :
    (update_para_1d_dec N W sts w).grid r c =
      (localCompute N W (ownerOf r W) (sts (ownerOf r W))).grid r c := by
  show (if r < N then (localCompute N W (ownerOf r W) (sts (ownerOf r W))).grid r c
    else (localCompute N W w (sts w)).grid r c) = _
  rw [if_pos hr]

theorem form_aug_grid_congr (N : ℕ) (g1 g2 : Grid) (h0 : 0 < N)
    (h : ∀ r c, r < N → c < N → g1 r c = g2 r c) :
    form_aug_grid N g1 = form_aug_grid N g2 := by
  funext i j
  unfold form_aug_grid
  exact h _ _ (Nat.mod_lt _ h0) (Nat.mod_lt _ h0)

/-- C1 (code_bug evidence): with `N = 10` and `mpi_size = 3` — a configuration
the spec requires to be rejected — the startup check of lines 142-147 does not
trigger: Python 2 floor division `10 / 3` and truncated true division
`int(10 * 1.0 / 3)` are both `3`, so the inequality test is false, no diagnostic
is printed, no `exit()` happens, and the simulation proceeds. -/
theorem startup_check_silent_at_10_3 : startup_check_triggers 10 3 = false := by
  unfold startup_check_triggers rows_per_proc int_true_div
  have h1 : ⌊(10 : ℚ) / ((3 : ℕ) : ℚ)⌋ = 3 := by
    rw [Int.floor_eq_iff]
    norm_num
  norm_num [h1]
  decide

/-- C2: for every grid size `N`, worker count `W` dividing `N`, generation count
`k` and initial grid `g` made identical on all workers by the startup broadcast,
`k` parallel generations of `update_para_1d_dec` leave every worker `w` in a
state bit-identical to `k` serial generations of `update` from the same start. -/
theorem para_matches_serial (N W k w : ℕ) (g : Grid) (hW : 0 < W) (hdvd : W ∣ N) :
    (update_para_1d_dec N W)^[k] (fun _ => initBcast N g) w =
      (update N)^[k] (initBcast N g) := by
  rw [update_para_iter_const N W k (initBcast N g)]

theorem para_matches_serial_witness :
    0 < 2 ∧ 2 ∣ 4 ∧
      (update_para_1d_dec 4 2)^[3] (fun _ => initBcast 4 (fun _ _ => 0)) 1 =
        (update 4)^[3] (initBcast 4 (fun _ _ => 0)) :=
  ⟨by decide, by decide,
    para_matches_serial 4 2 3 1 (fun _ _ => 0) (by decide) (by decide)⟩

/-- C3: for every `N ≥ 3`, every state whose augmented view satisfies
`aug_grid = form_aug_grid grid`, and every in-range `(row, col)`,
`neighbor_sum` equals the sum of the 8 neighbors obtained by explicit
modulo-`N` indexing of the unaugmented grid. -/
theorem neighbor_sum_matches_mod_reference (N : ℕ) (st : LifeState) (row col : ℕ)
    (hN : 3 ≤ N) (hinv : st.aug_grid = form_aug_grid N st.grid)
    (hr : row < N) (hc : col < N) :
    neighbor_sum st row col = refNeighborSum N st.grid row col :=
  neighbor_sum_eq_ref N st row col (by omega) hinv hr hc

theorem neighbor_sum_matches_mod_reference_witness :
    3 ≤ 3 ∧
      neighbor_sum (initBcast 3 (fun r c => (r + c) % 2)) 1 2 =
        refNeighborSum 3 (initBcast 3 (fun r c => (r + c) % 2)).grid 1 2 :=
  ⟨by decide, neighbor_sum_matches_mod_reference 3 (initBcast 3 (fun r c => (r + c) % 2))
    1 2 (by decide) rfl (by decide) (by decide)⟩

/-- C4: the serial `update` computes every cell from the fixed pre-step
snapshot `aug_grid` (a separate copy that the in-place grid writes never touch),
so on 0/1 grids satisfying the augmented-view invariant it coincides, cell by
cell, with the standard simultaneous Game of Life update computed from the
pre-step grid. -/
theorem update_is_simultaneous (N : ℕ) (st : LifeState) (r c : ℕ) (hN : 0 < N)
    (hinv : st.aug_grid = form_aug_grid N st.grid) (h01 : cells01 N st.grid) :
    (update N st).grid r c = simultaneousUpdate N st.grid r c := by
  rw [update_grid_eq]
  unfold simultaneousUpdate
  by_cases h : r < N ∧ c < N
  · rw [if_pos h, if_pos h]
    unfold nextCell
    rw [applyRule_eq_lifeRule _ _ (h01 r c h.1 h.2),
      neighbor_sum_eq_ref N st r c hN hinv h.1 h.2]
  · rw [if_neg h, if_neg h]

theorem update_is_simultaneous_witness :
    0 < 2 ∧
      (initBcast 2 (fun _ _ => 1)).aug_grid =
        form_aug_grid 2 (initBcast 2 (fun _ _ => 1)).grid ∧
      (update 2 (initBcast 2 (fun _ _ => 1))).grid 0 1 =
        simultaneousUpdate 2 (initBcast 2 (fun _ _ => 1)).grid 0 1 :=
  ⟨by decide, rfl, update_is_simultaneous 2 (initBcast 2 (fun _ _ => 1)) 0 1
    (by decide) rfl (fun r c _ _ => Or.inr rfl)⟩

/-- C5: for every current state `s ∈ {0,1}` and neighbor count `c ≤ 8`, the
per-cell transition the code implements (1 on count 3, 0 on counts other than
3 and 2, unchanged on count 2) equals the standard Game of Life rule. -/
theorem rule_matches_standard_life (s c : ℕ) (hs : s = 0 ∨ s = 1) (hc : c ≤ 8) :
    applyRule c s = lifeRule s c :=
  applyRule_eq_lifeRule c s hs

theorem rule_matches_standard_life_witness :
    ((1 : ℕ) = 0 ∨ (1 : ℕ) = 1) ∧ (3 : ℕ) ≤ 8 ∧ applyRule 3 1 = lifeRule 1 3 :=
  ⟨Or.inr rfl, by decide, rule_matches_standard_life 1 3 (Or.inr rfl) (by decide)⟩

/-- C6: for every `N x N` grid `g` (with `N > 0`), the wrap padding
`form_aug_grid` has `g` as its interior, its border rows/columns replicate the
opposite edge rows/columns of `g`, and its four corners replicate the diagonally
opposite corners of `g`.  (In this embedding arrays are index functions, so the
`(N+2) x (N+2)` extent is the meaningful index range `0 .. N+1` rather than a
provable size.) -/
theorem form_aug_grid_wrap_spec (N : ℕ) (g : Grid) (hN : 0 < N) :
    (∀ i j, i < N → j < N → form_aug_grid N g (i + 1) (j + 1) = g i j) ∧
    (∀ j, j < N → form_aug_grid N g 0 (j + 1) = g (N - 1) j) ∧
    (∀ j, j < N → form_aug_grid N g (N + 1) (j + 1) = g 0 j) ∧
    (∀ i, i < N → form_aug_grid N g (i + 1) 0 = g i (N - 1)) ∧
    (∀ i, i < N → form_aug_grid N g (i + 1) (N + 1) = g i 0) ∧
    form_aug_grid N g 0 0 = g (N - 1) (N - 1) ∧
    form_aug_grid N g 0 (N + 1) = g (N - 1) 0 ∧
    form_aug_grid N g (N + 1) 0 = g 0 (N - 1) ∧
    form_aug_grid N g (N + 1) (N + 1) = g 0 0 := by
  have eI : ∀ x : ℕ, x < N → (x + 1 + N - 1) % N = x := by
    intro x hx
    rw [show x + 1 + N - 1 = x + N by omega, Nat.add_mod_right]
    exact Nat.mod_eq_of_lt hx
  have e0 : (0 + N - 1) % N = N - 1 := by
    rw [show 0 + N - 1 = N - 1 by omega]
    exact Nat.mod_eq_of_lt (by omega)
  have eT : (N + 1 + N - 1) % N = 0 := by
    rw [show N + 1 + N - 1 = 0 + N + N by omega, Nat.add_mod_right, Nat.add_mod_right]
    rfl
  refine ⟨fun i j hi hj => ?_, fun j hj => ?_, fun j hj => ?_, fun i hi => ?_,
    fun i hi => ?_, ?_, ?_, ?_, ?_⟩ <;>
    unfold form_aug_grid
  · rw [eI i hi, eI j hj]
  · rw [e0, eI j hj]
  · rw [eT, eI j hj]
  · rw [eI i hi, e0]
  · rw [eI i hi, eT]
  · rw [e0]
  · rw [e0, eT]
  · rw [eT, e0]
  · rw [eT]

theorem form_aug_grid_wrap_spec_witness :
    0 < 2 ∧ form_aug_grid 2 (fun r c => 2 * r + c) 0 0 =
      (fun r c : ℕ => 2 * r + c) 1 1 :=
  ⟨by decide, (form_aug_grid_wrap_spec 2 (fun r c => 2 * r + c) (by decide)).2.2.2.2.2.1⟩

/-- C9: the invariant `aug_grid = form_aug_grid grid` holds at every generation
boundary: after construction / the startup broadcast (`initBcast`), after every
completed serial `update`, and on every worker after every completed
`update_para_1d_dec` (rank 0 rebuilds the augmented view from the fully
exchanged grid and broadcasts it). -/
theorem aug_grid_invariant (N W : ℕ) (g : Grid) (st : LifeState)
    (sts : ℕ → LifeState) (w : ℕ) (hN : 0 < N) :
    (initBcast N g).aug_grid = form_aug_grid N (initBcast N g).grid ∧
    (update N st).aug_grid = form_aug_grid N (update N st).grid ∧
    (update_para_1d_dec N W sts w).aug_grid =
      form_aug_grid N (update_para_1d_dec N W sts w).grid := by
  refine ⟨rfl, rfl, ?_⟩
  show form_aug_grid N ((update_para_1d_dec N W sts 0).grid) =
    form_aug_grid N ((update_para_1d_dec N W sts w).grid)
  apply form_aug_grid_congr N _ _ hN
  intro r c hr _
  rw [update_para_grid N W sts 0 r c hr, update_para_grid N W sts w r c hr]

theorem aug_grid_invariant_witness :
    0 < 2 ∧
      (update_para_1d_dec 2 1 (fun _ => initBcast 2 (fun _ _ => 1)) 5).aug_grid =
        form_aug_grid 2
          (update_para_1d_dec 2 1 (fun _ => initBcast 2 (fun _ _ => 1)) 5).grid :=
  ⟨by decide,
    (aug_grid_invariant 2 1 (fun _ _ => 0) (initBcast 2 (fun _ _ => 1))
      (fun _ => initBcast 2 (fun _ _ => 1)) 5 (by decide)).2.2⟩

/-- C10: 0/1 cell values are preserved by any number of serial or parallel
generations (the loop body only ever writes 0 or 1 or keeps the old value), and
under the augmented-view invariant `neighbor_sum` of any in-range cell is at
most 8 (hence in `[0, 8]`, the lower bound being trivial in `ℕ`). -/
theorem cells_binary_and_sum_bound (N W k w r c : ℕ) (st : LifeState)
    (h01 : cells01 N st.grid) (hinv : st.aug_grid = form_aug_grid N st.grid)
    (hN : 0 < N) (hr : r < N) (hc : c < N) :
    cells01 N ((update N)^[k] st).grid ∧
    cells01 N (((update_para_1d_dec N W)^[k] (fun _ => st)) w).grid ∧
    neighbor_sum st r c ≤ 8 := by
  refine ⟨cells01_update_iter N k st h01, ?_, ?_⟩
  · rw [update_para_iter_const N W k st]
    exact cells01_update_iter N k st h01
  · unfold neighbor_sum
    rw [hinv]
    have b1 := form_aug_grid_le_one N st.grid h01 hN (r + 2) (c + 2)
    have b2 := form_aug_grid_le_one N st.grid h01 hN (r + 2) (c + 1)
    have b3 := form_aug_grid_le_one N st.grid h01 hN (r + 2) c
    have b4 := form_aug_grid_le_one N st.grid h01 hN (r + 1) (c + 2)
    have b5 := form_aug_grid_le_one N st.grid h01 hN (r + 1) c
    have b6 := form_aug_grid_le_one N st.grid h01 hN r (c + 2)
    have b7 := form_aug_grid_le_one N st.grid h01 hN r (c + 1)
    have b8 := form_aug_grid_le_one N st.grid h01 hN r c
    omega

theorem cells_binary_and_sum_bound_witness :
    cells01 2 (initBcast 2 (fun _ _ => 1)).grid ∧
      (initBcast 2 (fun _ _ => 1)).aug_grid =
        form_aug_grid 2 (initBcast 2 (fun _ _ => 1)).grid ∧
      0 < 2 ∧ 0 < 2 ∧ 1 < 2 ∧
      neighbor_sum (initBcast 2 (fun _ _ => 1)) 0 1 ≤ 8 :=
  ⟨fun r c _ _ => Or.inr rfl, rfl, by decide, by decide, by decide,
    (cells_binary_and_sum_bound 2 3 2 4 0 1 (initBcast 2 (fun _ _ => 1))
      (fun r c _ _ => Or.inr rfl) rfl (by decide) (by decide) (by decide)).2.2⟩

end Paralife

namespace Paralife

/-- C7: for every `N` divisible by the worker count `W`, the ownership map
`row ↦ row mod W` gives every row below `N` exactly one owner below `W`, the
row sets of distinct workers are disjoint, their union over all workers is the
full row set, and every worker below `W` owns exactly `N / W` rows. -/
theorem row_partition_spec (N W : ℕ) (hW : 0 < W) (hdvd : W ∣ N) :
    (∀ r, r < N → ownerOf r W < W) ∧
    (∀ w1 w2, w1 ≠ w2 → Disjoint (ownedRows N W w1) (ownedRows N W w2)) ∧
    (Finset.range W).biUnion (ownedRows N W) = Finset.range N ∧
    (∀ v, v < W → (ownedRows N W v).card = N / W) := by
  refine ⟨fun r _ => Nat.mod_lt r hW, ?_, ?_, ?_⟩
  · intro w1 w2 hne
    rw [Finset.disjoint_left]
    intro a h1 h2
    unfold ownedRows at h1 h2
    rw [Finset.mem_filter] at h1 h2
    exact hne (h1.2.symm.trans h2.2)
  · ext a
    simp only [Finset.mem_biUnion, Finset.mem_range, ownedRows, Finset.mem_filter]
    constructor
    · rintro ⟨v, _, ha, _⟩
      exact ha
    · intro ha
      exact ⟨ownerOf a W, Nat.mod_lt a hW, ⟨ha, rfl⟩⟩
  · intro v hv
    have hre : ownedRows N W v =
        Finset.filter (fun x => x % W = v) (Finset.range N) := rfl
    rw [hre]
    have h1 : (Finset.filter (fun x => x % W = v) (Finset.range N)).card
        = N.count (· ≡ v [MOD W]) := by
      rw [Nat.count_eq_card_filter_range]
      apply Finset.card_nbij (fun a => a) <;>
        simp_all [Set.InjOn, Set.SurjOn, Set.MapsTo, Nat.ModEq,
          Nat.mod_eq_of_lt hv, Set.subset_def]
    rw [h1, Nat.count_modEq_card _ hW]
    have h2 : N % W = 0 := by
      obtain ⟨q, rfl⟩ := hdvd
      simp [Nat.mul_mod_right]
    simp [h2]

theorem row_partition_spec_witness :
    0 < 2 ∧ 2 ∣ 4 ∧ (ownedRows 4 2 1).card = 4 / 2 :=
  ⟨by decide, by decide,
    (row_partition_spec 4 2 (by decide) (by decide)).2.2.2 1 (by decide)⟩

theorem mul_ne_three (a b : ℕ) (ha : a ≤ 2) (hb : b ≤ 2) : a * b ≠ 3 := by
  interval_cases a <;> interval_cases b <;> omega

/-- In the three-row window around any in-range row, the two block rows
`{x0, x0+1}` appear exactly twice when the center row is one of them. -/
theorem pairInd_window_mem (N x0 i : ℕ) (hN : 4 ≤ N) (hx : x0 + 1 < N) (hi : i < N)
    (hmem : i = x0 ∨ i = x0 + 1) :
    pairInd x0 ((i + N - 1) % N) + pairInd x0 i + pairInd x0 ((i + 1) % N) = 2 := by
  rw [mod_sub_one N i hi, mod_add_one N i hi]
  unfold pairInd
  split_ifs <;> first
    | omega
    | (simp_all only [or_false, false_or, or_true, true_or]; omega)

/-- The three distinct rows of the window can never all lie in the two-element
set `{x0, x0+1}`, so the window hits the block rows at most twice. -/
theorem pairInd_window_le (N x0 i : ℕ) (hN : 4 ≤ N) (hx : x0 + 1 < N) (hi : i < N) :
    pairInd x0 ((i + N - 1) % N) + pairInd x0 i + pairInd x0 ((i + 1) % N) ≤ 2 := by
  rw [mod_sub_one N i hi, mod_add_one N i hi]
  unfold pairInd
  split_ifs <;> first
    | omega
    | (simp_all only [or_false, false_or, or_true, true_or]; omega)

/-- Every in-range cell of the 2 x 2 block grid is reproduced by one cell step:
block cells see exactly 3 live neighbors and stay alive, non-block cells see
0, 1, 2 or 4 live neighbors (a product of two window counts that are each at
most 2, hence never 3) and stay dead. -/
theorem blockGrid_nextCell (N r0 c0 i j : ℕ) (hN : 4 ≤ N) (hr0 : r0 + 1 < N)
    (hc0 : c0 + 1 < N) (hi : i < N) (hj : j < N) :
    nextCell (initBcast N (blockGrid r0 c0)) i j = blockGrid r0 c0 i j := by
  unfold nextCell
  rw [neighbor_sum_window N (initBcast N (blockGrid r0 c0)) i j rfl hi hj]
  show applyRule
      (blockGrid r0 c0 ((i + 1) % N) ((j + 1) % N) + blockGrid r0 c0 ((i + 1) % N) j +
        blockGrid r0 c0 ((i + 1) % N) ((j + N - 1) % N) +
        blockGrid r0 c0 i ((j + 1) % N) + blockGrid r0 c0 i ((j + N - 1) % N) +
        blockGrid r0 c0 ((i + N - 1) % N) ((j + 1) % N) +
        blockGrid r0 c0 ((i + N - 1) % N) j +
        blockGrid r0 c0 ((i + N - 1) % N) ((j + N - 1) % N))
      (blockGrid r0 c0 i j) = blockGrid r0 c0 i j
  set S : ℕ := blockGrid r0 c0 ((i + 1) % N) ((j + 1) % N) +
      blockGrid r0 c0 ((i + 1) % N) j +
      blockGrid r0 c0 ((i + 1) % N) ((j + N - 1) % N) +
      blockGrid r0 c0 i ((j + 1) % N) + blockGrid r0 c0 i ((j + N - 1) % N) +
      blockGrid r0 c0 ((i + N - 1) % N) ((j + 1) % N) +
      blockGrid r0 c0 ((i + N - 1) % N) j +
      blockGrid r0 c0 ((i + N - 1) % N) ((j + N - 1) % N) with hSdef
  have hS : S + pairInd r0 i * pairInd c0 j =
      (pairInd r0 ((i + N - 1) % N) + pairInd r0 i + pairInd r0 ((i + 1) % N)) *
        (pairInd c0 ((j + N - 1) % N) + pairInd c0 j + pairInd c0 ((j + 1) % N)) := by
    rw [hSdef]
    unfold blockGrid
    ring
  by_cases hmem : (i = r0 ∨ i = r0 + 1) ∧ (j = c0 ∨ j = c0 + 1)
  · have hpi : pairInd r0 i = 1 := by
      unfold pairInd
      rw [if_pos hmem.1]
    have hpj : pairInd c0 j = 1 := by
      unfold pairInd
      rw [if_pos hmem.2]
    have hA := pairInd_window_mem N r0 i hN hr0 hi hmem.1
    have hB := pairInd_window_mem N c0 j hN hc0 hj hmem.2
    rw [hA, hB, hpi, hpj] at hS
    have hSval : S = 3 := by omega
    have hgij : blockGrid r0 c0 i j = 1 := by
      unfold blockGrid
      rw [hpi, hpj]
    rw [hgij]
    unfold applyRule
    rw [if_pos hSval]
  · have hs0 : pairInd r0 i * pairInd c0 j = 0 := by
      by_cases hri : i = r0 ∨ i = r0 + 1
      · have hcj : ¬(j = c0 ∨ j = c0 + 1) := fun hcj => hmem ⟨hri, hcj⟩
        unfold pairInd
        rw [if_neg hcj, Nat.mul_zero]
      · unfold pairInd
        rw [if_neg hri, Nat.zero_mul]
    have hA := pairInd_window_le N r0 i hN hr0 hi
    have hB := pairInd_window_le N c0 j hN hc0 hj
    have hne3 := mul_ne_three _ _ hA hB
    rw [hs0] at hS
    have hSne : S ≠ 3 := by omega
    have hgij : blockGrid r0 c0 i j = 0 := by
      unfold blockGrid
      exact hs0
    rw [hgij]
    unfold applyRule
    rw [if_neg hSne]
    split
    · rfl
    · rfl

/-- One serial generation maps the block-grid state to itself, as a whole
`LifeState` (grid and rebuilt augmented view alike). -/
theorem blockGrid_fixed (N r0 c0 : ℕ) (hN : 4 ≤ N) (hr0 : r0 + 1 < N)
    (hc0 : c0 + 1 < N) :
    update N (initBcast N (blockGrid r0 c0)) = initBcast N (blockGrid r0 c0) := by
  have hgrid : (sweep N (initBcast N (blockGrid r0 c0))).grid = blockGrid r0 c0 := by
    funext i j
    rw [sweep_grid]
    by_cases h : i < N ∧ j < N
    · rw [if_pos h]
      exact blockGrid_nextCell N r0 c0 i j hN hr0 hc0 h.1 h.2
    · rw [if_neg h]
      rfl
  apply LifeState.ext
  · exact hgrid
  · exact congrArg (form_aug_grid N) hgrid

/-- C8: on a grid of size `N ≥ 4` whose only live cells are a single 2 x 2
block, one application of `update` returns the identical state, and hence the
block still life is unchanged after any number `k` of generations. -/
theorem block_still_life (N r0 c0 k : ℕ) (hN : 4 ≤ N) (hr0 : r0 + 1 < N)
    (hc0 : c0 + 1 < N) :
    update N (initBcast N (blockGrid r0 c0)) = initBcast N (blockGrid r0 c0) ∧
    (update N)^[k] (initBcast N (blockGrid r0 c0)) = initBcast N (blockGrid r0 c0) :=
  ⟨blockGrid_fixed N r0 c0 hN hr0 hc0,
    Function.iterate_fixed (blockGrid_fixed N r0 c0 hN hr0 hc0) k⟩

theorem block_still_life_witness :
    4 ≤ 4 ∧ 1 + 1 < 4 ∧ 1 + 1 < 4 ∧
      (update 4)^[5] (initBcast 4 (blockGrid 1 1)) = initBcast 4 (blockGrid 1 1) :=
  ⟨by decide, by decide, by decide,
    (block_still_life 4 1 1 5 (by decide) (by decide) (by decide)).2⟩

end Paralife
